import Mathlib

/-!
# Verification of the language-study identity and migration core

This file embeds, in Lean 4, the identity-derivation and progress-migration
core of the `language-study` repository (`src/App.jsx`): the `fnv1aHash`
function, the `makeId` / `makeIdSimple` identifier derivers with their text
normalizers, the studied-state migration effect, and the `markStudied` /
`unmarkStudied` mutation operations.  JavaScript strings are modelled as
lists of UTF-16 code units (`JStr := List Nat`); JavaScript number
arithmetic inside the hash loop is modelled exactly over `Int` (every
intermediate value there is below `2 ^ 35`, hence exactly representable in
an IEEE double, so integer arithmetic is a faithful model).

Theorems are stated against these embedded definitions.
-/

namespace LangStudy

/-- A JavaScript string, as its sequence of UTF-16 code units. -/
abbrev JStr := List Nat

/-- Code units (scalar values) of a Lean string literal.  For strings whose
characters all lie in the Basic Multilingual Plane — the only ones used in
this development — this coincides with the JavaScript UTF-16 code-unit
sequence. -/
def jstr (s : String) : JStr := s.data.map Char.toNat

/-! ## JavaScript 32-bit integer primitives

`ToUint32` / `ToInt32` conversions and the 32-bit operators used by
`fnv1aHash`: `^` (xor), `<<` (shift left) and `>>> 0`. -/

/-- JavaScript `ToUint32`: the argument reduced modulo `2 ^ 32` into
`[0, 2 ^ 32)`. -/
def toUint32 (a : Int) : Nat := (a % 4294967296).toNat

/-- Reinterpret a 32-bit pattern as a signed 32-bit integer (JavaScript
`ToInt32` applied to a value already reduced mod `2 ^ 32`). -/
def asInt32 (n : Nat) : Int :=
  if n % 4294967296 < 2147483648 then ((n % 4294967296 : Nat) : Int)
  else ((n % 4294967296 : Nat) : Int) - 4294967296

/-- JavaScript `a ^ b` on numbers: xor of the 32-bit patterns, read back as
a signed 32-bit integer. -/
def jsXor (a b : Int) : Int := asInt32 (Nat.xor (toUint32 a) (toUint32 b))

/-- JavaScript `a << k`: shift of the 32-bit pattern, read back as a signed
32-bit integer. -/
def jsShl (a : Int) (k : Nat) : Int := asInt32 (toUint32 a * 2 ^ k)

/-! ## `fnv1aHash` (src/App.jsx lines 7-14) -/

/-- One iteration of the `fnv1aHash` loop body:
`h ^= str.charCodeAt(i); h = (h >>> 0) + ((h << 1) + (h << 4) + (h << 7) + (h << 8) + (h << 24));`.
The additions are ordinary JavaScript number (exact) additions — the result
is *not* truncated to 32 bits here. -/
def fnv1aStep (h : Int) (c : Nat) : Int :=
  ((toUint32 (jsXor h (c : Int)) : Nat) : Int) +
    (jsShl (jsXor h (c : Int)) 1 + jsShl (jsXor h (c : Int)) 4 + jsShl (jsXor h (c : Int)) 7
      + jsShl (jsXor h (c : Int)) 8 + jsShl (jsXor h (c : Int)) 24)

/-- The `fnv1aHash` loop over the code units of the input string. -/
def fnv1aLoop (h : Int) : List Nat → Int
  | [] => h
  | c :: cs => fnv1aLoop (fnv1aStep h c) cs

/-- The numeric value `h >>> 0` returned by `fnv1aHash` before base-36
rendering, starting from the FNV offset basis `0x811c9dc5`. -/
def fnv1aNum (s : JStr) : Nat := toUint32 (fnv1aLoop 0x811c9dc5 s)

/-- Digit character for `Number.prototype.toString(36)`: `0`-`9` then
lowercase `a`-`z`. -/
def digit36 (d : Nat) : Nat := if d < 10 then 48 + d else 87 + d

/-- Fuel-indexed most-significant-first digit expansion.  The fuel only
bounds the recursion depth; `natToStrBase` below always supplies enough. -/
def toDigitsAux (b : Nat) : Nat → Nat → List Nat
  | 0, _ => []
  | fuel + 1, n => if n = 0 then [] else toDigitsAux b fuel (n / b) ++ [digit36 (n % b)]

/-- JavaScript `n.toString(b)` for a natural number `n` and base `b ≥ 2`:
lowercase digits, no padding, and `"0"` for zero. -/
def natToStrBase (b : Nat) (n : Nat) : JStr :=
  if n = 0 then [48] else toDigitsAux b (n + 1) n

/-- `(h >>> 0).toString(36)`: the string returned by `fnv1aHash`. -/
def fnv1aHash (s : JStr) : JStr := natToStrBase 36 (fnv1aNum s)

/-- Decimal rendering of a natural number (JavaScript's conversion of a
numeric index to a property key). -/
def natToStr10 (n : Nat) : JStr := natToStrBase 10 n

/-! ## Reference FNV-1a, written from the spec's words

"standard 32-bit FNV-1a": offset basis `0x811c9dc5`; for each code unit,
xor it into the accumulator and multiply by the FNV prime `16777619`,
truncating to 32 bits. -/

/-- Reference loop: `h := ((h xor c) * 16777619) mod 2 ^ 32`. -/
def fnv1aRefLoop (h : Nat) : List Nat → Nat
  | [] => h
  | c :: cs => fnv1aRefLoop (Nat.xor h c * 16777619 % 4294967296) cs

/-- Reference 32-bit FNV-1a of a code-unit sequence. -/
def fnv1aRef (s : JStr) : Nat := fnv1aRefLoop 0x811c9dc5 s

/-! ## Text normalization (src/App.jsx lines 15-42)

The Unicode-dependent primitives (`toLowerCase`, `normalize('NFKC')`, the
`\p{P}`/`\p{S}` and `\s` character classes) are ECMAScript built-ins backed
by the Unicode character database.  They are modelled here restricted to
the code points that occur in this development (ASCII, the combining acute
accent U+0301, the precomposed letter U+00E1, and the general-punctuation
block); on those code points each model agrees exactly with the Unicode
data the runtime uses.  Code points outside the modelled ranges are treated
as unaffected. -/

/-- ECMAScript `\s` (whitespace) class, complete per the ECMA-262 list. -/
def isWS (u : Nat) : Bool :=
  (9 ≤ u && u ≤ 13) || u == 32 || u == 160 || u == 5760 || (8192 ≤ u && u ≤ 8202)
    || u == 8232 || u == 8233 || u == 8239 || u == 8287 || u == 12288 || u == 65279

/-- The characters removed by `.replace(/["“”'‘’()]+/g, '')`. -/
def isQuoteChar (u : Nat) : Bool :=
  u == 34 || u == 8220 || u == 8221 || u == 39 || u == 8216 || u == 8217 || u == 40 || u == 41

/-- Unicode categories P (punctuation) and S (symbol), modelled on the
ASCII block and the General Punctuation block (U+2010..U+2027 and
U+2030..U+205E), which covers every P/S code point appearing in this
development; other code points are treated as outside the class. -/
def isPS (u : Nat) : Bool :=
  (33 ≤ u && u ≤ 47) || (58 ≤ u && u ≤ 64) || (91 ≤ u && u ≤ 96) || (123 ≤ u && u ≤ 126)
    || (8208 ≤ u && u ≤ 8231) || (8240 ≤ u && u ≤ 8286)

/-- `String.prototype.toLowerCase`, modelled on ASCII: every cased code
point used in this development is an ASCII letter or already lowercase. -/
def lowerUnit (u : Nat) : Nat := if 65 ≤ u && u ≤ 90 then u + 32 else u

/-- Lowercasing a string, unit by unit. -/
def lowerStr (s : JStr) : JStr := s.map lowerUnit

/-- Canonical/compatibility decomposition, restricted to the code points of
this development: U+00E1 decomposes to U+0061 U+0301; every other modelled
code point decomposes to itself. -/
def decomp (u : Nat) : List Nat := if u = 225 then [97, 769] else [u]

/-- Unicode primary composite of a starter and a following character,
restricted likewise: U+0061 + U+0301 compose to U+00E1. -/
def composePair (a b : Nat) : Option Nat :=
  if a = 97 && b = 769 then some 225 else none

/-- Canonical composition pass: repeatedly combine an adjacent pair that
has a primary composite.  The fuel (initially the length) strictly bounds
the number of steps, each of which shortens the list. -/
def composeAux : Nat → JStr → JStr
  | 0, s => s
  | fuel + 1, a :: b :: rest =>
    match composePair a b with
    | some c => composeAux fuel (c :: rest)
    | none => a :: composeAux fuel (b :: rest)
  | _ + 1, s => s

/-- `String.prototype.normalize('NFKC')` on the modelled code points:
decompose, then canonically compose. -/
def nfkc (s : JStr) : JStr :=
  composeAux (s.flatMap decomp).length (s.flatMap decomp)

/-- `.replace(/["“”'‘’()]+/g, '')`: removal of quote and parenthesis
characters (a removal of runs is a removal of each character). -/
def stripQuotes (s : JStr) : JStr := s.filter (fun u => !(isQuoteChar u))

/-- `.replaceAll('[', '').replaceAll(']', '')`. -/
def stripBrackets (s : JStr) : JStr :=
  (s.filter (fun u => !(u == 91))).filter (fun u => !(u == 93))

/-- `.replace(/[\p{P}\p{S}]+/gu, ' ')`: each maximal run of P/S characters
becomes a single space.  The boolean records whether the previous unit was
inside a run. -/
def replacePSGo (inRun : Bool) : JStr → JStr
  | [] => []
  | u :: rest =>
    if isPS u then
      if inRun then replacePSGo true rest else 32 :: replacePSGo true rest
    else u :: replacePSGo false rest

/-- The full P/S-run replacement. -/
def replacePS (s : JStr) : JStr := replacePSGo false s

/-- `.replace(/\s+/g, ' ')`: each maximal whitespace run becomes a single
space. -/
def collapseGo (inRun : Bool) : JStr → JStr
  | [] => []
  | u :: rest =>
    if isWS u then
      if inRun then collapseGo true rest else 32 :: collapseGo true rest
    else u :: collapseGo false rest

/-- The full whitespace collapse. -/
def collapseWS (s : JStr) : JStr := collapseGo false s

/-- Removal of trailing whitespace. -/
def trimEnd : JStr → JStr
  | [] => []
  | u :: rest =>
    match trimEnd rest with
    | [] => if isWS u then [] else [u]
    | r => u :: r

/-- `String.prototype.trim`: remove leading and trailing whitespace. -/
def trimStr (s : JStr) : JStr := trimEnd (s.dropWhile isWS)

/-- `.replace(/\s+/g, ' ').trim()`, the final two stages of `normalize`. -/
def canonWS (s : JStr) : JStr := trimStr (collapseWS s)

/-- JavaScript `(s || '')`: `null`/`undefined` (and the empty string)
become the empty string. -/
def orEmpty (s : Option JStr) : JStr := s.getD []

/-- The `normalize` closure inside `makeId` (the Unicode-property branch,
which is the one taken by the runtimes in the repository):
lowercase, NFKC, quote/bracket removal, P/S-run replacement by a space,
whitespace collapse, trim. -/
def normalize (s : Option JStr) : JStr :=
  canonWS (replacePS (stripBrackets (stripQuotes (nfkc (lowerStr (orEmpty s))))))

/-- `makeId` (src/App.jsx lines 15-42): hash of
`normalize(korean) + "|" + normalize(english)`; 124 is the code unit of
the bar. -/
def makeId (korean english : Option JStr) : JStr :=
  fnv1aHash (normalize korean ++ [124] ++ normalize english)

/-- `makeIdSimple` (src/App.jsx lines 44-48): hash of the lowercase+trim
key (trim first, then lowercase, as in the source). -/
def makeIdSimple (korean english : Option JStr) : JStr :=
  fnv1aHash (lowerStr (trimStr (orEmpty korean)) ++ [124] ++ lowerStr (trimStr (orEmpty english)))

/-! ## Records and the progress map -/

/-- A parsed vocabulary row (src/App.jsx line 78): the id is derived from
the korean and english fields by `makeId`. -/
structure Row where
  id : JStr
  korean : JStr
  english : JStr
  audio : JStr
deriving DecidableEq

/-- Construction of a row as `parseCSV` does it: the id is `makeId` of
the two text fields. -/
def mkRow (korean english audio : JStr) : Row :=
  ⟨makeId (some korean) (some english), korean, english, audio⟩

/-- A JavaScript object holding the studied state: an ordered list of
(key, value) entries with (in any actual object) pairwise-distinct keys. -/
abbrev PM := List (JStr × Bool)

/-- Truthiness of `p[k]`: the value stored at `k`, or `false` when the key
is absent. -/
def truthy (p : PM) (k : JStr) : Bool :=
  match p with
  | [] => false
  | e :: rest => if e.1 = k then e.2 else truthy rest k

/-- Whether `k` is a key of the object. -/
def hasKey (p : PM) (k : JStr) : Bool :=
  match p with
  | [] => false
  | e :: rest => if e.1 = k then true else hasKey rest k

/-- JavaScript property assignment `p[k] = v`: update in place if the key
exists, otherwise append (insertion order, as `Object.keys` observes it). -/
def objSet (p : PM) (k : JStr) (v : Bool) : PM :=
  match p with
  | [] => [(k, v)]
  | e :: rest => if e.1 = k then (e.1, v) :: rest else e :: objSet rest k v

/-- `Object.keys`. -/
def keysOf (p : PM) : List JStr := p.map Prod.fst

/-! ## The migration effect (src/App.jsx lines 166-194) -/

/-- The if/else-if chain of the migration loop body for the row at index
`i`; every branch performs the same assignment `migrated[row.id] = true`,
so the body is faithfully captured by this chain deciding whether the
assignment happens.  Lookups are tried in source order: current id, legacy
simple hash, audio filename, positional index. -/
def carryCond (studied : PM) (i : Nat) (row : Row) : Bool :=
  if truthy studied row.id then true
  else if truthy studied (makeIdSimple (some row.korean) (some row.english)) then true
  else if truthy studied row.audio then true
  else if truthy studied (natToStr10 i) then true
  else false

/-- The `rows.forEach` loop building `migrated` (lines 172-179). -/
def migrateGo (studied : PM) (m : PM) : List (Nat × Row) → PM
  | [] => m
  | p :: rest =>
    migrateGo studied (if carryCond studied p.1 p.2 then objSet m p.2.id true else m) rest

/-- The computed migrated map. -/
def migrate (rows : List Row) (studied : PM) : PM :=
  migrateGo studied [] rows.enum

/-- The change detection of lines 181-187: `studiedIdKeys` is the list of
keys of `studied` that are current ids, `migratedKeys` the keys of the
computed map; `sameAll` holds when the lengths agree and every migrated key
is truthy in `studied`. -/
def sameAllCheck (rows : List Row) (studied : PM) : Bool :=
  ((keysOf studied).filter (fun k => decide (k ∈ rows.map Row.id))).length
      == (keysOf (migrate rows studied)).length
    && (keysOf (migrate rows studied)).all (fun k => truthy studied k)

/-- The whole reactive migration effect (lines 166-194): `none` means the
effect does nothing (no rewrite, no persistence); `some m` means it
persists the migrated map `m`.  The early returns for an empty row list or
an empty studied map, and the `sameAll` change-detection of lines 181-187,
are modelled exactly. -/
def migrationEffect (rows : List Row) (studied : PM) : Option PM :=
  if rows.length = 0 then none
  else if (keysOf studied).length = 0 then none
  else if sameAllCheck rows studied then none
  else some (migrate rows studied)

/-! ## Progress mutations (src/App.jsx lines 204-213) -/

/-- `markStudied`: `{ ...prev, [id]: true }`. -/
def markStudied (p : PM) (id : JStr) : PM := objSet p id true

/-- `unmarkStudied`: return `prev` unchanged when `prev[id]` is falsy,
otherwise remove the key `id`. -/
def unmarkStudied (p : PM) (id : JStr) : PM :=
  if truthy p id then p.filter (fun e => !(e.1 == id)) else p

/-- A row is studied under some legacy key: legacy simple hash, audio
filename or decimal positional index (the last three lookups of the
chain). -/
def legacyHit (studied : PM) (i : Nat) (r : Row) : Bool :=
  truthy studied (makeIdSimple (some r.korean) (some r.english)) || truthy studied r.audio
    || truthy studied (natToStr10 i)

/-- How many of the three legacy keys of a row are truthy in the progress
map (to state "studied under exactly one legacy key"). -/
def legacyKeyCount (studied : PM) (i : Nat) (r : Row) : Nat :=
  (if truthy studied (makeIdSimple (some r.korean) (some r.english)) then 1 else 0)
    + (if truthy studied r.audio then 1 else 0)
    + (if truthy studied (natToStr10 i) then 1 else 0)


/-! ### Arithmetic lemmas relating the JavaScript form to the reference -/

theorem toUint32_lt (a : Int) : toUint32 a < 4294967296 := by
  unfold toUint32
  have h1 : a % 4294967296 < 4294967296 := Int.emod_lt_of_pos a (by decide)
  omega

theorem toUint32_ofNat {n : Nat} (h : n < 4294967296) : toUint32 (n : Int) = n := by
  unfold toUint32
  have : ((n : Int) % 4294967296) = (n : Int) := Int.emod_eq_of_lt (by positivity) (by exact_mod_cast h)
  omega

theorem toUint32_congr {a b : Int} (h : a % 4294967296 = b % 4294967296) :
    toUint32 a = toUint32 b := by
  unfold toUint32; rw [h]

theorem asInt32_emod (n : Nat) : asInt32 n % 4294967296 = (n : Int) % 4294967296 := by
  unfold asInt32
  have h1 : n % 4294967296 < 4294967296 := Nat.mod_lt _ (by decide)
  have h2 : ((n % 4294967296 : Nat) : Int) = (n : Int) % 4294967296 := by
    push_cast; omega
  split <;> omega

theorem toUint32_asInt32 (n : Nat) : toUint32 (asInt32 n) = n % 4294967296 := by
  unfold toUint32
  rw [asInt32_emod]
  omega

theorem toUint32_natCast (m : Nat) : toUint32 (m : Int) = m % 4294967296 := by
  unfold toUint32
  omega

/-- The shift-and-add sum is congruent mod `2 ^ 32` to multiplication by the
FNV prime `16777619 = 1 + 2 + 16 + 128 + 256 + 2 ^ 24`. -/
theorem shiftadd_emod (u : Nat) :
    ((u : Int) + (asInt32 (u * 2 ^ 1) + asInt32 (u * 2 ^ 4) + asInt32 (u * 2 ^ 7)
      + asInt32 (u * 2 ^ 8) + asInt32 (u * 2 ^ 24))) % 4294967296
    = ((u * 16777619 : Nat) : Int) % 4294967296 := by
  have m1 := asInt32_emod (u * 2 ^ 1)
  have m2 := asInt32_emod (u * 2 ^ 4)
  have m3 := asInt32_emod (u * 2 ^ 7)
  have m4 := asInt32_emod (u * 2 ^ 8)
  have m5 := asInt32_emod (u * 2 ^ 24)
  push_cast at m1 m2 m3 m4 m5 ⊢
  omega

/-- The per-character shift-and-add update equals, mod `2 ^ 32`, the
standard multiply-by-prime update. -/
theorem fnv1aStep_toUint32 (h : Int) {c : Nat} (hc : c < 65536) :
    toUint32 (fnv1aStep h c) = Nat.xor (toUint32 h) c * 16777619 % 4294967296 := by
  have hc32 : toUint32 (c : Int) = c := toUint32_ofNat (by omega)
  have hult : Nat.xor (toUint32 h) c < 4294967296 := by
    have := Nat.xor_lt_two_pow (n := 32) (toUint32_lt h) (by omega : c < 2 ^ 32)
    simpa using this
  have hstep : fnv1aStep h c
      = ((Nat.xor (toUint32 h) c : Nat) : Int)
        + (asInt32 (Nat.xor (toUint32 h) c * 2 ^ 1) + asInt32 (Nat.xor (toUint32 h) c * 2 ^ 4)
          + asInt32 (Nat.xor (toUint32 h) c * 2 ^ 7) + asInt32 (Nat.xor (toUint32 h) c * 2 ^ 8)
          + asInt32 (Nat.xor (toUint32 h) c * 2 ^ 24)) := by
    unfold fnv1aStep jsXor jsShl
    rw [hc32, toUint32_asInt32, Nat.mod_eq_of_lt hult]
  have hmod : fnv1aStep h c % 4294967296
      = ((Nat.xor (toUint32 h) c * 16777619 : Nat) : Int) % 4294967296 := by
    rw [hstep]; exact shiftadd_emod _
  calc toUint32 (fnv1aStep h c)
      = toUint32 ((Nat.xor (toUint32 h) c * 16777619 : Nat) : Int) := toUint32_congr hmod
    _ = Nat.xor (toUint32 h) c * 16777619 % 4294967296 := toUint32_natCast _

/-- The whole loop agrees with the reference loop, mod `2 ^ 32`. -/
theorem fnv1aLoop_toUint32 : ∀ (cs : List Nat) (h : Int), (∀ c ∈ cs, c < 65536) →
    toUint32 (fnv1aLoop h cs) = fnv1aRefLoop (toUint32 h) cs
  | [], h, _ => rfl
  | c :: cs, h, hcs => by
    have hc : c < 65536 := hcs c (List.mem_cons_self c cs)
    have ih := fnv1aLoop_toUint32 cs (fnv1aStep h c) (fun d hd => hcs d (List.mem_cons_of_mem c hd))
    show toUint32 (fnv1aLoop (fnv1aStep h c) cs) = fnv1aRefLoop (Nat.xor (toUint32 h) c * 16777619 % 4294967296) cs
    rw [ih, fnv1aStep_toUint32 h hc]

/-- C1: for every string (sequence of UTF-16 code units), the JavaScript
shift-and-add form of `fnv1aHash` — which does not truncate the intermediate
sum — computes exactly the standard 32-bit FNV-1a value (offset basis
`0x811c9dc5`, per-code-unit xor then multiplication by the FNV prime
`16777619` mod `2 ^ 32`), and the function returns that value rendered in
lowercase base-36 with no padding. -/
theorem fnv1aHash_eq_ref (s : JStr) (h : ∀ c ∈ s, c < 65536) :
    fnv1aNum s = fnv1aRef s ∧ fnv1aHash s = natToStrBase 36 (fnv1aRef s) := by
  have hnum : fnv1aNum s = fnv1aRef s := by
    unfold fnv1aNum fnv1aRef
    rw [fnv1aLoop_toUint32 s _ h]
    norm_num [toUint32]
    rfl
  exact ⟨hnum, by rw [fnv1aHash, hnum]⟩

/-- Witness for C1 at the concrete input "a|b" (code units all below
`2 ^ 16`): the hash value is `692878806`, rendered "bgispi". -/
theorem fnv1aHash_eq_ref_witness :
    (∀ c ∈ jstr "a|b", c < 65536) ∧
      (fnv1aNum (jstr "a|b") = fnv1aRef (jstr "a|b")
        ∧ fnv1aHash (jstr "a|b") = natToStrBase 36 (fnv1aRef (jstr "a|b")))
      ∧ fnv1aRef (jstr "a|b") = 692878806 ∧ fnv1aHash (jstr "a|b") = jstr "bgispi" :=
  ⟨by decide, fnv1aHash_eq_ref (jstr "a|b") (by decide), by decide, by decide⟩

/-! ## Basic lemmas about the object operations -/

@[simp] theorem truthy_nil (k : JStr) : truthy [] k = false := rfl

theorem truthy_cons (e : JStr × Bool) (rest : PM) (k : JStr) :
    truthy (e :: rest) k = if e.1 = k then e.2 else truthy rest k := rfl

theorem hasKey_cons (e : JStr × Bool) (rest : PM) (k : JStr) :
    hasKey (e :: rest) k = if e.1 = k then true else hasKey rest k := rfl

theorem objSet_cons (e : JStr × Bool) (rest : PM) (k : JStr) (v : Bool) :
    objSet (e :: rest) k v = if e.1 = k then (e.1, v) :: rest else e :: objSet rest k v := rfl

theorem truthy_objSet (k : JStr) (v : Bool) (k' : JStr) :
    ∀ p : PM, truthy (objSet p k v) k' = if k' = k then v else truthy p k'
  | [] => by
    show truthy [(k, v)] k' = _
    by_cases h : k' = k
    · rw [if_pos h, truthy_cons, if_pos h.symm]
    · rw [if_neg h, truthy_cons, if_neg (fun hh => h hh.symm), truthy_nil]
  | e :: rest => by
    rw [objSet_cons]
    by_cases h1 : e.1 = k
    · rw [if_pos h1]
      by_cases h2 : k' = k
      · rw [if_pos h2, truthy_cons, if_pos (h1.trans h2.symm)]
      · have h3 : ¬e.1 = k' := fun hh => h2 (hh.symm.trans h1)
        rw [if_neg h2, truthy_cons, truthy_cons, if_neg h3, if_neg h3]
    · rw [if_neg h1, truthy_cons]
      by_cases h2 : e.1 = k'
      · have h3 : ¬k' = k := fun hh => h1 (h2.trans hh)
        rw [if_pos h2, if_neg h3, truthy_cons, if_pos h2]
      · rw [if_neg h2, truthy_objSet k v k' rest, truthy_cons, if_neg h2]

theorem hasKey_objSet (k : JStr) (v : Bool) (k' : JStr) :
    ∀ p : PM, hasKey (objSet p k v) k' = if k' = k then true else hasKey p k'
  | [] => by
    show hasKey [(k, v)] k' = _
    by_cases h : k' = k
    · rw [if_pos h, hasKey_cons, if_pos h.symm]
    · rw [if_neg h, hasKey_cons, if_neg (fun hh => h hh.symm)]
  | e :: rest => by
    rw [objSet_cons]
    by_cases h1 : e.1 = k
    · rw [if_pos h1]
      by_cases h2 : k' = k
      · rw [if_pos h2, hasKey_cons, if_pos (h1.trans h2.symm)]
      · have h3 : ¬e.1 = k' := fun hh => h2 (hh.symm.trans h1)
        rw [if_neg h2, hasKey_cons, hasKey_cons, if_neg h3]
    · rw [if_neg h1, hasKey_cons]
      by_cases h2 : e.1 = k'
      · have h3 : ¬k' = k := fun hh => h1 (h2.trans hh)
        rw [if_pos h2, if_neg h3, hasKey_cons, if_pos h2]
      · rw [if_neg h2, hasKey_objSet k v k' rest, hasKey_cons, if_neg h2]

@[simp] theorem hasKey_nil (k : JStr) : hasKey [] k = false := rfl

theorem hasKey_iff_mem_keysOf (k : JStr) : ∀ p : PM, hasKey p k = true ↔ k ∈ keysOf p
  | [] => by simp [keysOf]
  | e :: rest => by
    rw [hasKey_cons]
    by_cases h : e.1 = k
    · simp [keysOf, h]
    · simp only [if_neg h, keysOf, List.map_cons, List.mem_cons,
        hasKey_iff_mem_keysOf k rest]
      constructor
      · intro hk; right; exact hk
      · rintro (hk | hk)
        · exact absurd hk.symm h
        · exact hk

theorem truthy_eq_hasKey {p : PM} (hv : ∀ e ∈ p, e.2 = true) (k : JStr) :
    truthy p k = hasKey p k := by
  induction p with
  | nil => rfl
  | cons e rest ih =>
    have he : e.2 = true := hv e (List.mem_cons_self e rest)
    have ih2 := ih (fun x hx => hv x (List.mem_cons_of_mem e hx))
    by_cases h : e.1 = k
    · rw [truthy_cons, hasKey_cons, if_pos h, if_pos h, he]
    · rw [truthy_cons, hasKey_cons, if_neg h, if_neg h, ih2]

theorem objSet_of_not_hasKey (k : JStr) (v : Bool) :
    ∀ p : PM, hasKey p k = false → objSet p k v = p ++ [(k, v)]
  | [], _ => rfl
  | e :: rest, h => by
    rw [hasKey_cons] at h
    by_cases h1 : e.1 = k
    · rw [if_pos h1] at h; exact absurd h (by simp)
    · rw [if_neg h1] at h
      rw [objSet_cons, if_neg h1, objSet_of_not_hasKey k v rest h]
      rfl

theorem keysOf_objSet_pos (k : JStr) (v : Bool) :
    ∀ p : PM, hasKey p k = true → keysOf (objSet p k v) = keysOf p
  | [], h => by simp at h
  | e :: rest, h => by
    rw [objSet_cons]
    by_cases h1 : e.1 = k
    · rw [if_pos h1]; simp [keysOf]
    · rw [if_neg h1]
      have h2 : hasKey rest k = true := by
        rw [hasKey_cons, if_neg h1] at h; exact h
      show e.1 :: keysOf (objSet rest k v) = e.1 :: keysOf rest
      rw [keysOf_objSet_pos k v rest h2]

theorem keysOf_objSet_neg (k : JStr) (v : Bool) :
    ∀ p : PM, hasKey p k = false → keysOf (objSet p k v) = keysOf p ++ [k]
  | [], _ => by simp [objSet, keysOf]
  | e :: rest, h => by
    rw [objSet_cons]
    by_cases h1 : e.1 = k
    · rw [hasKey_cons, if_pos h1] at h; exact absurd h (by simp)
    · rw [if_neg h1]
      have h2 : hasKey rest k = false := by
        rw [hasKey_cons, if_neg h1] at h; exact h
      show e.1 :: keysOf (objSet rest k v) = (e.1 :: keysOf rest) ++ [k]
      rw [keysOf_objSet_neg k v rest h2, List.cons_append]

theorem mem_objSet (k : JStr) (v : Bool) :
    ∀ (p : PM), ∀ e ∈ objSet p k v, e ∈ p ∨ e = (k, v)
  | [], e, he => by
    right
    simpa [objSet] using he
  | f :: rest, e, he => by
    rw [objSet_cons] at he
    by_cases h : f.1 = k
    · rw [if_pos h] at he
      rcases List.mem_cons.mp he with he | he
      · right; rw [he, h]
      · left; exact List.mem_cons_of_mem f he
    · rw [if_neg h] at he
      rcases List.mem_cons.mp he with he | he
      · left; rw [he]; exact List.mem_cons_self f rest
      · rcases mem_objSet k v rest e he with h2 | h2
        · left; exact List.mem_cons_of_mem f h2
        · right; exact h2

theorem nodup_keysOf_objSet (k : JStr) (v : Bool) {p : PM}
    (h : (keysOf p).Nodup) : (keysOf (objSet p k v)).Nodup := by
  cases hk : hasKey p k
  · rw [keysOf_objSet_neg k v p hk]
    rw [List.nodup_append]
    refine ⟨h, List.nodup_singleton k, ?_⟩
    intro a ha hb
    simp only [List.mem_singleton] at hb
    subst hb
    exact absurd ((hasKey_iff_mem_keysOf a p).mpr ha) (by simp [hk])
  · rw [keysOf_objSet_pos k v p hk]
    exact h

/-! ## Lemmas about the migration loop -/

theorem migrateGo_cons (studied m : PM) (p : Nat × Row) (l : List (Nat × Row)) :
    migrateGo studied m (p :: l)
      = migrateGo studied (if carryCond studied p.1 p.2 then objSet m p.2.id true else m) l := rfl

theorem mem_migrateGo (studied : PM) :
    ∀ (l : List (Nat × Row)) (m : PM), ∀ e ∈ migrateGo studied m l,
      e ∈ m ∨ (e.2 = true ∧ ∃ p ∈ l, p.2.id = e.1)
  | [], _, _, he => Or.inl he
  | p :: l, m, e, he => by
    rw [migrateGo_cons] at he
    rcases mem_migrateGo studied l _ e he with h1 | h1
    · cases hc : carryCond studied p.1 p.2
      · rw [hc] at h1
        simp only [Bool.false_eq_true, if_false] at h1
        exact Or.inl h1
      · rw [hc] at h1
        simp only [if_true] at h1
        rcases mem_objSet _ _ m e h1 with h2 | h2
        · exact Or.inl h2
        · right
          exact ⟨by rw [h2], p, List.mem_cons_self p l, by rw [h2]⟩
    · right
      obtain ⟨hv, q, hq, hid⟩ := h1
      exact ⟨hv, q, List.mem_cons_of_mem p hq, hid⟩

theorem truthy_migrateGo (studied : PM) :
    ∀ (l : List (Nat × Row)) (m : PM) (k : JStr),
      truthy (migrateGo studied m l) k
        = (truthy m k || l.any (fun p => p.2.id == k && carryCond studied p.1 p.2))
  | [], m, k => by simp [migrateGo]
  | p :: l, m, k => by
    rw [migrateGo_cons, truthy_migrateGo studied l _ k]
    cases hc : carryCond studied p.1 p.2
    · simp [hc]
    · simp only [hc, if_true, List.any_cons, Bool.and_true, truthy_objSet]
      by_cases hk : k = p.2.id
      · simp [hk]
      · have hne : (p.2.id == k) = false := by
          rw [beq_eq_false_iff_ne]
          exact fun hh => hk hh.symm
        simp [hk, hne]

theorem hasKey_migrateGo (studied : PM) :
    ∀ (l : List (Nat × Row)) (m : PM) (k : JStr),
      hasKey (migrateGo studied m l) k
        = (hasKey m k || l.any (fun p => p.2.id == k && carryCond studied p.1 p.2))
  | [], m, k => by simp [migrateGo]
  | p :: l, m, k => by
    rw [migrateGo_cons, hasKey_migrateGo studied l _ k]
    cases hc : carryCond studied p.1 p.2
    · simp [hc]
    · simp only [hc, if_true, List.any_cons, Bool.and_true, hasKey_objSet]
      by_cases hk : k = p.2.id
      · simp [hk]
      · have hne : (p.2.id == k) = false := by
          rw [beq_eq_false_iff_ne]
          exact fun hh => hk hh.symm
        simp [hk, hne]

theorem nodup_keysOf_migrateGo (studied : PM) :
    ∀ (l : List (Nat × Row)) (m : PM),
      (keysOf m).Nodup → (keysOf (migrateGo studied m l)).Nodup
  | [], _, h => h
  | p :: l, m, h => by
    rw [migrateGo_cons]
    apply nodup_keysOf_migrateGo studied l
    cases hc : carryCond studied p.1 p.2
    · simpa [hc] using h
    · simp only [hc, if_true]
      exact nodup_keysOf_objSet _ _ h

theorem snd_mem_of_mem_enumFrom {α : Type} :
    ∀ (l : List α) (n : Nat) (p : Nat × α), p ∈ List.enumFrom n l → p.2 ∈ l
  | a :: l, n, p, hp => by
    rcases List.mem_cons.mp hp with h | h
    · rw [h]; exact List.mem_cons_self a l
    · exact List.mem_cons_of_mem a (snd_mem_of_mem_enumFrom l (n + 1) p h)

theorem snd_mem_of_mem_enum {α : Type} (l : List α) (p : Nat × α) (hp : p ∈ l.enum) :
    p.2 ∈ l := snd_mem_of_mem_enumFrom l 0 p hp

/-- Every entry of the computed map has value `true` and a key that is the
current id of some input row. -/
theorem migrate_entries (rows : List Row) (studied : PM) :
    ∀ e ∈ migrate rows studied, e.2 = true ∧ ∃ r ∈ rows, r.id = e.1 := by
  intro e he
  rcases mem_migrateGo studied rows.enum [] e he with h | h
  · exact absurd h (List.not_mem_nil e)
  · obtain ⟨hv, p, hp, hid⟩ := h
    exact ⟨hv, p.2, snd_mem_of_mem_enum rows p hp, hid⟩

/-- The computed map has pairwise-distinct keys. -/
theorem migrate_nodup_keys (rows : List Row) (studied : PM) :
    (keysOf (migrate rows studied)).Nodup :=
  nodup_keysOf_migrateGo studied rows.enum [] List.nodup_nil

/-- A key is truthy in the computed map exactly when some row has it as its
current id and that row's chain condition fires. -/
theorem truthy_migrate (rows : List Row) (studied : PM) (k : JStr) :
    truthy (migrate rows studied) k
      = rows.enum.any (fun p => p.2.id == k && carryCond studied p.1 p.2) := by
  rw [migrate, truthy_migrateGo]
  simp

/-- The nested if/else-if chain of the loop body equals the ordered
disjunction of the four lookups. -/
theorem carryCond_eq_or (s : PM) (i : Nat) (r : Row) :
    carryCond s i r
      = (truthy s r.id || truthy s (makeIdSimple (some r.korean) (some r.english))
          || truthy s r.audio || truthy s (natToStr10 i)) := by
  unfold carryCond
  cases t1 : truthy s r.id <;>
    cases t2 : truthy s (makeIdSimple (some r.korean) (some r.english)) <;>
    cases t3 : truthy s r.audio <;>
    cases t4 : truthy s (natToStr10 i) <;>
    simp

/-- C2: for every row list and progress map, the migration loop decides
each row by the four lookups of the if/else-if chain — current id, legacy
simple hash, raw audio filename, positional index, in that order, first
match winning — and the computed output map contains only `true` entries
whose keys are current ids of rows of the input list, with no duplicate
and no stray key. -/
theorem migrate_characterization (rows : List Row) (studied : PM) :
    (∀ e ∈ migrate rows studied, e.2 = true ∧ ∃ r ∈ rows, r.id = e.1)
    ∧ (keysOf (migrate rows studied)).Nodup
    ∧ (∀ k, truthy (migrate rows studied) k
        = rows.enum.any (fun p => p.2.id == k && carryCond studied p.1 p.2))
    ∧ (∀ (s : PM) (i : Nat) (r : Row),
        carryCond s i r
          = (truthy s r.id || truthy s (makeIdSimple (some r.korean) (some r.english))
              || truthy s r.audio || truthy s (natToStr10 i))) :=
  ⟨migrate_entries rows studied, migrate_nodup_keys rows studied,
    truthy_migrate rows studied, carryCond_eq_or⟩

/-- Witness for C2 at a concrete input: the characterization instantiated
at one record and its own id. -/
theorem migrate_characterization_witness :
    truthy (migrate [mkRow (jstr "a") (jstr "b") []] [(jstr "bgispi", true)]) (jstr "bgispi")
      = [mkRow (jstr "a") (jstr "b") []].enum.any
          (fun p => p.2.id == jstr "bgispi" && carryCond [(jstr "bgispi", true)] p.1 p.2) :=
  (migrate_characterization [mkRow (jstr "a") (jstr "b") []] [(jstr "bgispi", true)]).2.2.1
    (jstr "bgispi")

/-! ## The no-op / change-detection equivalence (claim C3) -/

theorem carryCond_nil (i : Nat) (r : Row) : carryCond [] i r = false := rfl

theorem migrateGo_nil_studied : ∀ (l : List (Nat × Row)) (m : PM), migrateGo [] m l = m
  | [], _ => rfl
  | p :: l, m => by
    rw [migrateGo_cons, carryCond_nil]
    simp only [Bool.false_eq_true, if_false]
    exact migrateGo_nil_studied l m

theorem mem_keysOf_migrate {rows : List Row} {studied : PM} {k : JStr}
    (h : k ∈ keysOf (migrate rows studied)) : k ∈ rows.map Row.id := by
  obtain ⟨e, he, hk⟩ := List.mem_map.mp h
  obtain ⟨-, r, hr, hid⟩ := migrate_entries rows studied e he
  exact List.mem_map.mpr ⟨r, hr, hid.trans hk⟩

theorem values_migrate_true {rows : List Row} {studied : PM} :
    ∀ e ∈ migrate rows studied, e.2 = true :=
  fun e he => (migrate_entries rows studied e he).1

theorem truthy_of_mem_keysOf {p : PM} (hv : ∀ e ∈ p, e.2 = true) {k : JStr}
    (h : k ∈ keysOf p) : truthy p k = true := by
  rw [truthy_eq_hasKey hv]
  exact (hasKey_iff_mem_keysOf k p).mpr h

theorem mem_keysOf_of_truthy {p : PM} {k : JStr} (h : truthy p k = true) :
    k ∈ keysOf p := by
  induction p with
  | nil => simp [truthy] at h
  | cons e rest ih =>
    rw [truthy_cons] at h
    by_cases h1 : e.1 = k
    · exact List.mem_map.mpr ⟨e, List.mem_cons_self e rest, h1⟩
    · rw [if_neg h1] at h
      exact List.mem_cons_of_mem e.1 (ih h)

/-- The `sameAll` check of lines 182-187 succeeds exactly when the computed
map and the current-id-keyed part of `studied` have the same key set
(given a well-formed `studied`: distinct keys, all values `true`). -/
theorem sameAllCheck_iff (rows : List Row) (studied : PM)
    (hnd : (keysOf studied).Nodup) (hv : ∀ e ∈ studied, e.2 = true) :
    sameAllCheck rows studied = true ↔
      (∀ k, k ∈ keysOf (migrate rows studied)
        ↔ k ∈ (keysOf studied).filter (fun k => decide (k ∈ rows.map Row.id))) := by
  have hndM : (keysOf (migrate rows studied)).Nodup :=
    migrate_nodup_keys rows studied
  have hndS : ((keysOf studied).filter (fun k => decide (k ∈ rows.map Row.id))).Nodup :=
    hnd.filter _
  rw [sameAllCheck, Bool.and_eq_true, beq_iff_eq, List.all_eq_true]
  constructor
  · rintro ⟨hlen, hall⟩
    have hsub : keysOf (migrate rows studied)
        ⊆ (keysOf studied).filter (fun k => decide (k ∈ rows.map Row.id)) := by
      intro k hk
      refine List.mem_filter.mpr ⟨mem_keysOf_of_truthy (hall k hk), ?_⟩
      exact decide_eq_true (mem_keysOf_migrate hk)
    have hperm := (List.subperm_of_subset hndM hsub).perm_of_length_le (le_of_eq hlen)
    exact fun k => hperm.mem_iff
  · intro hiff
    have hsub1 : keysOf (migrate rows studied)
        ⊆ (keysOf studied).filter (fun k => decide (k ∈ rows.map Row.id)) :=
      fun k hk => (hiff k).mp hk
    have hsub2 : (keysOf studied).filter (fun k => decide (k ∈ rows.map Row.id))
        ⊆ keysOf (migrate rows studied) :=
      fun k hk => (hiff k).mpr hk
    have hperm := (List.subperm_of_subset hndM hsub1).antisymm
      (List.subperm_of_subset hndS hsub2)
    refine ⟨hperm.length_eq.symm, fun k hk => ?_⟩
    exact truthy_of_mem_keysOf hv (List.mem_of_mem_filter (hsub1 hk))

/-- C3: migration is a no-op (no rewrite, no persistence) exactly when the
computed output's key set equals the set of keys of the input progress map
that are current record ids; the hypotheses state that `studied` is a
well-formed JavaScript progress object (pairwise-distinct keys, all stored
values `true`). -/
theorem migrationEffect_noop_iff (rows : List Row) (studied : PM)
    (hnd : (keysOf studied).Nodup) (hv : ∀ e ∈ studied, e.2 = true) :
    migrationEffect rows studied = none ↔
      (∀ k, k ∈ keysOf (migrate rows studied)
        ↔ k ∈ (keysOf studied).filter (fun k => decide (k ∈ rows.map Row.id))) := by
  unfold migrationEffect
  by_cases h1 : rows.length = 0
  · rw [if_pos h1]
    have hrows : rows = [] := List.length_eq_zero.mp h1
    subst hrows
    simp [migrate, migrateGo, keysOf]
  · rw [if_neg h1]
    by_cases h2 : (keysOf studied).length = 0
    · rw [if_pos h2]
      have hstudied : studied = [] := by
        have : keysOf studied = [] := List.length_eq_zero.mp h2
        cases studied with
        | nil => rfl
        | cons e rest => simp [keysOf] at this
      subst hstudied
      simp [migrate, migrateGo_nil_studied, keysOf]
    · rw [if_neg h2]
      rw [← sameAllCheck_iff rows studied hnd hv]
      cases hs : sameAllCheck rows studied
      · simp [hs]
      · simp [hs]

/-- Witness for C3 at a concrete well-formed input: one record studied
under its current id, so migration is a no-op, and the key-set equation
holds. -/
theorem migrationEffect_noop_iff_witness :
    (∀ e ∈ [(jstr "bgispi", true)], e.2 = true)
    ∧ (keysOf [(jstr "bgispi", true)]).Nodup
    ∧ (migrationEffect [mkRow (jstr "a") (jstr "b") []] [(jstr "bgispi", true)] = none ↔
        (∀ k, k ∈ keysOf (migrate [mkRow (jstr "a") (jstr "b") []] [(jstr "bgispi", true)])
          ↔ k ∈ (keysOf [(jstr "bgispi", true)]).filter
              (fun k => decide (k ∈ [mkRow (jstr "a") (jstr "b") []].map Row.id)))) :=
  ⟨by decide, by decide,
    migrationEffect_noop_iff [mkRow (jstr "a") (jstr "b") []] [(jstr "bgispi", true)]
      (by decide) (by decide)⟩

/-! ## Shape of derived identifiers (claim C9) -/

theorem digit36_class {d : Nat} (hd : d < 36) :
    (48 ≤ digit36 d ∧ digit36 d ≤ 57) ∨ (97 ≤ digit36 d ∧ digit36 d ≤ 122) := by
  unfold digit36
  split <;> omega

theorem toDigitsAux_length_le (b : Nat) (hb : 2 ≤ b) :
    ∀ (fuel n k : Nat), n < b ^ k → (toDigitsAux b fuel n).length ≤ k
  | 0, n, k, _ => by simp [toDigitsAux]
  | fuel + 1, n, k, h => by
    by_cases hn : n = 0
    · simp [toDigitsAux, hn]
    · cases k with
      | zero =>
        rw [pow_zero] at h
        omega
      | succ k =>
        have hdiv : n / b < b ^ k := by
          rw [Nat.div_lt_iff_lt_mul (by omega : 0 < b), ← pow_succ]
          exact h
        have ih := toDigitsAux_length_le b hb fuel (n / b) k hdiv
        simp only [toDigitsAux, if_neg hn, List.length_append, List.length_singleton]
        omega

theorem toDigitsAux_mem (b : Nat) (hb0 : 0 < b) (hb : b ≤ 36) :
    ∀ (fuel n : Nat), ∀ u ∈ toDigitsAux b fuel n,
      (48 ≤ u ∧ u ≤ 57) ∨ (97 ≤ u ∧ u ≤ 122)
  | 0, n, u, hu => by simp [toDigitsAux] at hu
  | fuel + 1, n, u, hu => by
    by_cases hn : n = 0
    · simp [toDigitsAux, hn] at hu
    · simp only [toDigitsAux, if_neg hn, List.mem_append, List.mem_singleton] at hu
      rcases hu with h | h
      · exact toDigitsAux_mem b hb0 hb fuel (n / b) u h
      · rw [h]
        exact digit36_class (lt_of_lt_of_le (Nat.mod_lt n hb0) hb)

theorem natToStrBase_ne_nil (b n : Nat) : natToStrBase b n ≠ [] := by
  unfold natToStrBase
  by_cases hn : n = 0
  · simp [hn]
  · rw [if_neg hn]
    show toDigitsAux b (n + 1) n ≠ []
    simp [toDigitsAux, if_neg hn]

/-- Base-36 rendering of a 32-bit value: nonempty, at most 7 units, all in
the `[0-9a-z]` alphabet. -/
theorem natToStrBase36_shape {n : Nat} (h : n < 4294967296) :
    natToStrBase 36 n ≠ [] ∧ (natToStrBase 36 n).length ≤ 7
    ∧ ∀ u ∈ natToStrBase 36 n, (48 ≤ u ∧ u ≤ 57) ∨ (97 ≤ u ∧ u ≤ 122) := by
  refine ⟨natToStrBase_ne_nil 36 n, ?_, ?_⟩
  · unfold natToStrBase
    by_cases hn : n = 0
    · simp [hn]
    · rw [if_neg hn]
      exact toDigitsAux_length_le 36 (by omega) (n + 1) n 7
        (lt_of_lt_of_le h (by norm_num))
  · intro u hu
    unfold natToStrBase at hu
    by_cases hn : n = 0
    · rw [if_pos hn] at hu
      rw [List.mem_singleton.mp hu]
      left; omega
    · rw [if_neg hn] at hu
      exact toDigitsAux_mem 36 (by omega) (le_refl 36) (n + 1) n u hu

/-- C9: for every pair of inputs — strings, empty strings, or the absent
values modelled by `none` — `makeId` returns a nonempty string of at most 7
characters from the lowercase base-36 alphabet. -/
theorem makeId_shape (korean english : Option JStr) :
    makeId korean english ≠ []
    ∧ (makeId korean english).length ≤ 7
    ∧ ∀ u ∈ makeId korean english, (48 ≤ u ∧ u ≤ 57) ∨ (97 ≤ u ∧ u ≤ 122) := by
  unfold makeId fnv1aHash
  exact natToStrBase36_shape (toUint32_lt _)

/-- Witness for C9 at the absent inputs (null/undefined modelled by
`none`). -/
theorem makeId_shape_witness :
    makeId none none ≠ [] ∧ (makeId none none).length ≤ 7 :=
  ⟨(makeId_shape none none).1, (makeId_shape none none).2.1⟩

/-! ## `markStudied` validates nothing (claim C10) -/

/-- C10: `markStudied` adds `id -> true` and changes nothing else, for
every string `id` — in particular for an id that is not the current id of
any record of the row set; the mutation operations alone therefore do not
maintain the invariant that every progress key is a current record id. -/
theorem markStudied_no_validation (rows : List Row) (p : PM) (id : JStr)
    (_hstray : ∀ r ∈ rows, r.id ≠ id) :
    truthy (markStudied p id) id = true
    ∧ (∀ k, k ≠ id → truthy (markStudied p id) k = truthy p k) := by
  constructor
  · rw [markStudied, truthy_objSet, if_pos rfl]
  · intro k hk
    rw [markStudied, truthy_objSet, if_neg hk]

/-- Witness for C10: marking the stray id "zz" (not an id of the single
record) stores it anyway. -/
theorem markStudied_no_validation_witness :
    (∀ r ∈ [mkRow (jstr "a") (jstr "b") []], r.id ≠ jstr "zz")
    ∧ (truthy (markStudied [] (jstr "zz")) (jstr "zz") = true
      ∧ (∀ k, k ≠ jstr "zz" → truthy (markStudied [] (jstr "zz")) k = truthy [] k)) :=
  ⟨by decide, markStudied_no_validation [mkRow (jstr "a") (jstr "b") []] [] (jstr "zz") (by decide)⟩

/-! ## Mark/unmark round trip (claim C8) -/

/-- C8 counterexample: on a map that already contains `id -> true`, marking
then unmarking does not restore the original map — the pre-existing entry
is removed. -/
theorem mark_unmark_not_roundtrip :
    unmarkStudied (markStudied [(jstr "a", true)] (jstr "a")) (jstr "a")
      ≠ [(jstr "a", true)] := by decide

theorem truthy_append_right {p : PM} {k : JStr} (h : hasKey p k = false) (v : Bool) :
    truthy (p ++ [(k, v)]) k = v := by
  induction p with
  | nil => simp [truthy_cons]
  | cons e rest ih =>
    rw [hasKey_cons] at h
    by_cases h1 : e.1 = k
    · rw [if_pos h1] at h
      exact absurd h (by simp)
    · rw [if_neg h1] at h
      rw [List.cons_append, truthy_cons, if_neg h1, ih h]

theorem filter_keys_ne {p : PM} {id : JStr} (h : hasKey p id = false) :
    p.filter (fun e => !(e.1 == id)) = p := by
  induction p with
  | nil => rfl
  | cons e rest ih =>
    rw [hasKey_cons] at h
    by_cases h1 : e.1 = id
    · rw [if_pos h1] at h
      exact absurd h (by simp)
    · rw [if_neg h1] at h
      rw [List.filter_cons_of_pos (by simpa using h1), ih h]

/-- C8 amended: marking then unmarking restores the original map for every
map that does not already contain the key `id` (the claim fails when the
key pre-exists, as the counterexample shows). -/
theorem mark_unmark_roundtrip (p : PM) (id : JStr) (h : hasKey p id = false) :
    unmarkStudied (markStudied p id) id = p := by
  rw [markStudied, objSet_of_not_hasKey id true p h, unmarkStudied]
  rw [if_pos (truthy_append_right h true)]
  rw [List.filter_append, filter_keys_ne h]
  simp

/-- Witness for C8's amended statement at a concrete map without the key. -/
theorem mark_unmark_roundtrip_witness :
    hasKey [(jstr "b", true)] (jstr "a") = false
    ∧ unmarkStudied (markStudied [(jstr "b", true)] (jstr "a")) (jstr "a")
      = [(jstr "b", true)] :=
  ⟨by decide, mark_unmark_roundtrip [(jstr "b", true)] (jstr "a") (by decide)⟩

/-! ## Migration idempotence (claim C5) -/

theorem hasKey_append (p q : PM) (k : JStr) :
    hasKey (p ++ q) k = (hasKey p k || hasKey q k) := by
  induction p with
  | nil => simp
  | cons e rest ih =>
    rw [List.cons_append, hasKey_cons, hasKey_cons]
    by_cases h : e.1 = k
    · rw [if_pos h, if_pos h]
      simp
    · rw [if_neg h, if_neg h, ih]

/-- When every id about to be inserted is fresh for the accumulator and the
ids in the remaining work list are pairwise distinct, the loop appends one
`(id, true)` entry per row whose chain condition fires, in order. -/
theorem migrateGo_eq_append (studied : PM) :
    ∀ (l : List (Nat × Row)) (m : PM),
      (∀ p ∈ l, hasKey m p.2.id = false) →
      List.Pairwise (fun p q : Nat × Row => p.2.id ≠ q.2.id) l →
      migrateGo studied m l
        = m ++ (l.filter (fun p => carryCond studied p.1 p.2)).map (fun p => (p.2.id, true))
  | [], m, _, _ => by simp [migrateGo]
  | p :: l, m, hfresh, hpw => by
    rw [migrateGo_cons]
    rcases List.pairwise_cons.mp hpw with ⟨hhead, htail⟩
    cases hc : carryCond studied p.1 p.2
    · simp only [Bool.false_eq_true, if_false]
      rw [migrateGo_eq_append studied l m
        (fun q hq => hfresh q (List.mem_cons_of_mem p hq)) htail]
      rw [List.filter_cons_of_neg (by simp [hc])]
    · simp only [if_true]
      have hm' : objSet m p.2.id true = m ++ [(p.2.id, true)] :=
        objSet_of_not_hasKey p.2.id true m (hfresh p (List.mem_cons_self p l))
      rw [hm']
      have hfresh' : ∀ q ∈ l, hasKey (m ++ [(p.2.id, true)]) q.2.id = false := by
        intro q hq
        rw [hasKey_append]
        have h1 : hasKey m q.2.id = false := hfresh q (List.mem_cons_of_mem p hq)
        have h2 : hasKey [(p.2.id, true)] q.2.id = false := by
          rw [hasKey_cons, if_neg (hhead q hq)]
          rfl
        rw [h1, h2]
        rfl
      rw [migrateGo_eq_append studied l (m ++ [(p.2.id, true)]) hfresh' htail]
      rw [List.filter_cons_of_pos (by simp [hc]), List.map_cons, List.append_assoc]
      rfl

/-- Pairwise distinctness of the ids of the enumerated rows, from
distinctness of the ids of the rows. -/
theorem enum_pairwise_ne_id {rows : List Row} (hnd : (rows.map Row.id).Nodup) :
    List.Pairwise (fun p q : Nat × Row => p.2.id ≠ q.2.id) rows.enum := by
  have h1 : List.Pairwise (fun a b : Row => a.id ≠ b.id) rows :=
    List.pairwise_map.mp hnd
  have h2 : List.Pairwise (fun a b : Row => a.id ≠ b.id) (rows.enum.map Prod.snd) := by
    rw [List.enum_map_snd]
    exact h1
  exact (List.pairwise_map (R := fun a b : Row => a.id ≠ b.id) (f := Prod.snd)).mp h2

/-- With pairwise-distinct ids, the computed map is exactly the in-order
list of carried rows. -/
theorem migrate_eq_filter_map (rows : List Row) (studied : PM)
    (hnd : (rows.map Row.id).Nodup) :
    migrate rows studied
      = (rows.enum.filter (fun p => carryCond studied p.1 p.2)).map
          (fun p => (p.2.id, true)) := by
  rw [migrate, migrateGo_eq_append studied rows.enum [] (fun p _ => rfl)
    (enum_pairwise_ne_id hnd)]
  rfl

/-- C5 counterexample: a record whose audio field equals another record's
current id is not carried by the first migration but is carried by a second
run on the first run's output, so the migration computation is not
idempotent. -/
theorem migrate_not_idempotent :
    migrate [mkRow (jstr "a") (jstr "b") (jstr "x.mp3"),
        mkRow (jstr "c") (jstr "d") (mkRow (jstr "a") (jstr "b") (jstr "x.mp3")).id]
      (migrate [mkRow (jstr "a") (jstr "b") (jstr "x.mp3"),
          mkRow (jstr "c") (jstr "d") (mkRow (jstr "a") (jstr "b") (jstr "x.mp3")).id]
        [(jstr "x.mp3", true)])
    ≠ migrate [mkRow (jstr "a") (jstr "b") (jstr "x.mp3"),
        mkRow (jstr "c") (jstr "d") (mkRow (jstr "a") (jstr "b") (jstr "x.mp3")).id]
      [(jstr "x.mp3", true)] := by decide

/-- C5 amended: the migration computation is idempotent provided the rows
have pairwise-distinct current ids and no row's legacy lookup keys (legacy
simple hash, audio filename, decimal positional index) collide with a
different row's current id. -/
theorem migrate_idempotent (rows : List Row) (studied : PM)
    (hnd : (rows.map Row.id).Nodup)
    (hcol : ∀ p ∈ rows.enum, ∀ r' ∈ rows, r'.id ≠ p.2.id →
      makeIdSimple (some p.2.korean) (some p.2.english) ≠ r'.id
      ∧ p.2.audio ≠ r'.id ∧ natToStr10 p.1 ≠ r'.id) :
    migrate rows (migrate rows studied) = migrate rows studied := by
  have hpw := enum_pairwise_ne_id hnd
  -- a legacy lookup of row p in the migrated map can only hit p's own id
  have hlegacy : ∀ p ∈ rows.enum, ∀ k,
      (makeIdSimple (some p.2.korean) (some p.2.english) = k ∨ p.2.audio = k
        ∨ natToStr10 p.1 = k) →
      truthy (migrate rows studied) k = true → k = p.2.id := by
    intro p hp k hk htr
    obtain ⟨r', hr', hid⟩ := List.mem_map.mp (mem_keysOf_migrate (mem_keysOf_of_truthy htr))
    by_cases heq : r'.id = p.2.id
    · rw [← hid, heq]
    · obtain ⟨h1, h2, h3⟩ := hcol p hp r' hr' heq
      rcases hk with hk | hk | hk
      · exact absurd (hk.trans hid.symm) h1
      · exact absurd (hk.trans hid.symm) h2
      · exact absurd (hk.trans hid.symm) h3
  -- hence the chain condition over the migrated map reduces to its first lookup
  have hcarry : ∀ p ∈ rows.enum,
      carryCond (migrate rows studied) p.1 p.2 = truthy (migrate rows studied) p.2.id := by
    intro p hp
    rw [carryCond_eq_or]
    cases ht : truthy (migrate rows studied) p.2.id
    · cases t2 : truthy (migrate rows studied)
          (makeIdSimple (some p.2.korean) (some p.2.english))
      · cases t3 : truthy (migrate rows studied) p.2.audio
        · cases t4 : truthy (migrate rows studied) (natToStr10 p.1)
          · rfl
          · have := hlegacy p hp (natToStr10 p.1) (Or.inr (Or.inr rfl)) t4
            rw [this] at t4
            rw [t4] at ht
            exact absurd ht (by simp)
        · have := hlegacy p hp p.2.audio (Or.inr (Or.inl rfl)) t3
          rw [this] at t3
          rw [t3] at ht
          exact absurd ht (by simp)
      · have := hlegacy p hp _ (Or.inl rfl) t2
        rw [this] at t2
        rw [t2] at ht
        exact absurd ht (by simp)
    · simp
  -- the first lookup in the migrated map is the original chain condition
  have hfirst : ∀ p ∈ rows.enum,
      truthy (migrate rows studied) p.2.id = carryCond studied p.1 p.2 := by
    intro p hp
    rw [truthy_migrate]
    cases hc : carryCond studied p.1 p.2
    · rw [List.any_eq_false]
      intro q hq
      rw [Bool.and_eq_true, beq_iff_eq]
      rintro ⟨hqid, hqc⟩
      by_cases hpq : q = p
      · rw [hpq] at hqc
        rw [hqc] at hc
        exact absurd hc (by simp)
      · exact absurd hqid
          (List.Pairwise.forall (fun _ _ hh => hh.symm.imp fun e => e.symm ▸ rfl) hpw hq hp hpq)
    · rw [List.any_eq_true]
      exact ⟨p, hp, by rw [beq_self_eq_true, hc]; rfl⟩
  calc migrate rows (migrate rows studied)
      = (rows.enum.filter (fun p => carryCond (migrate rows studied) p.1 p.2)).map
          (fun p => (p.2.id, true)) := migrate_eq_filter_map rows _ hnd
    _ = (rows.enum.filter (fun p => carryCond studied p.1 p.2)).map
          (fun p => (p.2.id, true)) := by
        rw [List.filter_congr (fun p hp => (hcarry p hp).trans (hfirst p hp))]
    _ = migrate rows studied := (migrate_eq_filter_map rows studied hnd).symm

/-- Witness for C5's amended statement: a single plain record studied under
its audio filename; both hypotheses hold and re-migration changes
nothing. -/
theorem migrate_idempotent_witness :
    ([mkRow (jstr "a") (jstr "b") (jstr "x.mp3")].map Row.id).Nodup
    ∧ migrate [mkRow (jstr "a") (jstr "b") (jstr "x.mp3")]
        (migrate [mkRow (jstr "a") (jstr "b") (jstr "x.mp3")] [(jstr "x.mp3", true)])
      = migrate [mkRow (jstr "a") (jstr "b") (jstr "x.mp3")] [(jstr "x.mp3", true)] :=
  ⟨by decide,
    migrate_idempotent [mkRow (jstr "a") (jstr "b") (jstr "x.mp3")] [(jstr "x.mp3", true)]
      (by decide) (by decide)⟩

/-! ## Studied-count preservation under legacy-only migration (claim C6) -/

/-- C6 counterexample: two distinct records (same text, different audio)
share one derived id; the progress map uses only legacy (audio) keys and
each record is studied under exactly one legacy key, yet the migrated map
has one `true` entry while two records are marked studied. -/
theorem migrate_count_not_preserved :
    ([mkRow (jstr "a") (jstr "b") (jstr "x"), mkRow (jstr "a") (jstr "b") (jstr "y")].all
        (fun r => !(truthy [(jstr "x", true), (jstr "y", true)] r.id))) = true
    ∧ ([mkRow (jstr "a") (jstr "b") (jstr "x"), mkRow (jstr "a") (jstr "b") (jstr "y")].enum.all
        (fun p => legacyKeyCount [(jstr "x", true), (jstr "y", true)] p.1 p.2 == 1)) = true
    ∧ ([mkRow (jstr "a") (jstr "b") (jstr "x"), mkRow (jstr "a") (jstr "b") (jstr "y")].enum.countP
        (fun p => legacyHit [(jstr "x", true), (jstr "y", true)] p.1 p.2)) = 2
    ∧ (migrate [mkRow (jstr "a") (jstr "b") (jstr "x"), mkRow (jstr "a") (jstr "b") (jstr "y")]
        [(jstr "x", true), (jstr "y", true)]).length = 1 := by
  refine ⟨by decide, by decide, by decide, by decide⟩

/-- C6 amended: when the rows have pairwise-distinct current ids, the
progress map uses only legacy schemes (no current id is truthy) and every
studied row is studied under exactly one legacy key, the migrated map has
exactly one `true` entry per studied row — none lost (every studied row's
id is truthy in the output), none duplicated (output keys are distinct). -/
theorem migrate_preserves_count (rows : List Row) (studied : PM)
    (hnd : (rows.map Row.id).Nodup)
    (hleg : ∀ r ∈ rows, truthy studied r.id = false)
    (_hone : ∀ p ∈ rows.enum, legacyHit studied p.1 p.2 = true →
      legacyKeyCount studied p.1 p.2 = 1) :
    (migrate rows studied).length
      = rows.enum.countP (fun p => legacyHit studied p.1 p.2)
    ∧ (∀ p ∈ rows.enum, legacyHit studied p.1 p.2 = true →
        truthy (migrate rows studied) p.2.id = true)
    ∧ (keysOf (migrate rows studied)).Nodup := by
  have hcc : ∀ p ∈ rows.enum, carryCond studied p.1 p.2 = legacyHit studied p.1 p.2 := by
    intro p hp
    rw [carryCond_eq_or, hleg p.2 (snd_mem_of_mem_enum rows p hp), legacyHit]
    simp [Bool.or_assoc]
  refine ⟨?_, ?_, migrate_nodup_keys rows studied⟩
  · rw [migrate_eq_filter_map rows studied hnd, List.length_map,
      List.filter_congr hcc, ← List.countP_eq_length_filter]
  · intro p hp hhit
    rw [truthy_migrate, List.any_eq_true]
    exact ⟨p, hp, by rw [beq_self_eq_true, hcc p hp, hhit]; rfl⟩

/-- Witness for C6's amended statement: one record studied under its audio
filename only. -/
theorem migrate_preserves_count_witness :
    ([mkRow (jstr "a") (jstr "b") (jstr "x.mp3")].map Row.id).Nodup
    ∧ (migrate [mkRow (jstr "a") (jstr "b") (jstr "x.mp3")] [(jstr "x.mp3", true)]).length
        = [mkRow (jstr "a") (jstr "b") (jstr "x.mp3")].enum.countP
            (fun p => legacyHit [(jstr "x.mp3", true)] p.1 p.2) :=
  ⟨by decide,
    (migrate_preserves_count [mkRow (jstr "a") (jstr "b") (jstr "x.mp3")] [(jstr "x.mp3", true)]
      (by decide) (by decide) (by decide)).1⟩

/-! ## The audio lookup and empty audio fields (claim C7) -/

/-- C7 counterexample: the audio lookup has no non-emptiness guard — with a
stray `"" -> true` entry in the progress map, a record whose audio field is
the empty string is carried forward (marked studied) by the audio step. -/
theorem audio_empty_carried :
    truthy (migrate [mkRow (jstr "c") (jstr "d") []] [([], true)])
      (mkRow (jstr "c") (jstr "d") []).id = true := by decide

/-- C7 amended: for a record with empty audio, the audio lookup contributes
nothing provided the progress map has no truthy empty-string key: the chain
then reduces to the other three lookups.  (Without that proviso the lookup
does fire, as the counterexample shows — the code has no non-emptiness
guard.) -/
theorem audio_empty_not_carried (studied : PM) (i : Nat) (r : Row)
    (hempty : truthy studied [] = false) (haudio : r.audio = []) :
    carryCond studied i r
      = (truthy studied r.id || truthy studied (makeIdSimple (some r.korean) (some r.english))
          || truthy studied (natToStr10 i)) := by
  rw [carryCond_eq_or, haudio, hempty]
  cases truthy studied r.id <;>
    cases truthy studied (makeIdSimple (some r.korean) (some r.english)) <;>
    cases truthy studied (natToStr10 i) <;> rfl

/-- Witness for C7's amended statement. -/
theorem audio_empty_not_carried_witness :
    truthy [(jstr "k", true)] [] = false
    ∧ (mkRow (jstr "c") (jstr "d") []).audio = []
    ∧ carryCond [(jstr "k", true)] 0 (mkRow (jstr "c") (jstr "d") [])
      = (truthy [(jstr "k", true)] (mkRow (jstr "c") (jstr "d") []).id
          || truthy [(jstr "k", true)]
              (makeIdSimple (some (mkRow (jstr "c") (jstr "d") []).korean)
                (some (mkRow (jstr "c") (jstr "d") []).english))
          || truthy [(jstr "k", true)] (natToStr10 0)) :=
  ⟨by decide, rfl,
    audio_empty_not_carried [(jstr "k", true)] 0 (mkRow (jstr "c") (jstr "d") [])
      (by decide) rfl⟩

/-! ## Idempotence of the whitespace stages (towards claim C4) -/

theorem collapseGo_cons (b : Bool) (u : Nat) (rest : JStr) :
    collapseGo b (u :: rest)
      = if isWS u = true then
          (if b = true then collapseGo true rest else 32 :: collapseGo true rest)
        else u :: collapseGo false rest := rfl

theorem collapseGo_false_ws {u : Nat} (h : isWS u = true) (rest : JStr) :
    collapseGo false (u :: rest) = 32 :: collapseGo true rest := by
  rw [collapseGo_cons, if_pos h, if_neg Bool.false_ne_true]

theorem collapseGo_true_ws {u : Nat} (h : isWS u = true) (rest : JStr) :
    collapseGo true (u :: rest) = collapseGo true rest := by
  rw [collapseGo_cons, if_pos h, if_pos rfl]

theorem collapseGo_cons_not_ws {u : Nat} (h : isWS u = false) (b : Bool) (rest : JStr) :
    collapseGo b (u :: rest) = u :: collapseGo false rest := by
  rw [collapseGo_cons, if_neg (by simp [h])]

theorem collapseGo_length : ∀ (b : Bool) (x : JStr), (collapseGo b x).length ≤ x.length
  | _, [] => Nat.le_refl 0
  | b, u :: rest => by
    by_cases h : isWS u = true
    · cases b
      · rw [collapseGo_false_ws h, List.length_cons, List.length_cons]
        exact Nat.succ_le_succ (collapseGo_length true rest)
      · rw [collapseGo_true_ws h, List.length_cons]
        exact Nat.le_succ_of_le (collapseGo_length true rest)
    · rw [collapseGo_cons_not_ws (by simpa using h) b, List.length_cons, List.length_cons]
      exact Nat.succ_le_succ (collapseGo_length false rest)

/-- Both variants of the collapse pass are idempotent. -/
theorem collapseGo_idem : ∀ x : JStr,
    collapseGo false (collapseGo false x) = collapseGo false x
    ∧ collapseGo true (collapseGo true x) = collapseGo true x
  | [] => ⟨rfl, rfl⟩
  | u :: rest => by
    have ih := collapseGo_idem rest
    by_cases h : isWS u = true
    · constructor
      · rw [collapseGo_false_ws h, collapseGo_false_ws (by decide : isWS 32 = true), ih.2]
      · rw [collapseGo_true_ws h]
        exact ih.2
    · have h' : isWS u = false := by simpa using h
      constructor
      · rw [collapseGo_cons_not_ws h' false, collapseGo_cons_not_ws h' false, ih.1]
      · rw [collapseGo_cons_not_ws h' true, collapseGo_cons_not_ws h' true, ih.1]

/-- A fixpoint of the in-run variant is a fixpoint of the normal variant
and cannot start with a whitespace unit. -/
theorem collapse_true_fix {z : JStr} (h : collapseGo true z = z) :
    collapseGo false z = z ∧ ∀ v t, z = v :: t → isWS v = false := by
  cases z with
  | nil => exact ⟨rfl, by intro v t ht; cases ht⟩
  | cons v z' =>
    by_cases hv : isWS v = true
    · exfalso
      rw [collapseGo_true_ws hv] at h
      have hlen := collapseGo_length true z'
      have : (collapseGo true z').length = (v :: z').length := by rw [h]
      simp only [List.length_cons] at this
      omega
    · have hv' : isWS v = false := by simpa using hv
      rw [collapseGo_cons_not_ws hv' true] at h
      have hz' : collapseGo false z' = z' := (List.cons.inj h).2
      constructor
      · rw [collapseGo_cons_not_ws hv' false, hz']
      · intro w t ht
        rw [← (List.cons.inj ht).1]
        exact hv'

theorem collapse_fix_cons_not_ws {u : Nat} {z : JStr} (hu : isWS u = false)
    (h : collapseGo false (u :: z) = u :: z) : collapseGo false z = z := by
  rw [collapseGo_cons_not_ws hu false] at h
  exact (List.cons.inj h).2

theorem collapse_fix_cons_ws {u : Nat} {z : JStr} (hu : isWS u = true)
    (h : collapseGo false (u :: z) = u :: z) :
    u = 32 ∧ collapseGo true z = z := by
  rw [collapseGo_false_ws hu] at h
  obtain ⟨h1, h2⟩ := List.cons.inj h
  exact ⟨h1.symm, h2⟩

theorem dropWhile_head_not (p : Nat → Bool) :
    ∀ (l : JStr) (v : Nat) (t : JStr), l.dropWhile p = v :: t → p v = false
  | [], v, t, h => by cases h
  | u :: l, v, t, h => by
    by_cases hu : p u = true
    · rw [List.dropWhile_cons_of_pos hu] at h
      exact dropWhile_head_not p l v t h
    · rw [List.dropWhile_cons_of_neg hu] at h
      rw [← (List.cons.inj h).1]
      simpa using hu

theorem dropWhile_of_head_not {p : Nat → Bool} {z : JStr}
    (h : ∀ v t, z = v :: t → p v = false) : z.dropWhile p = z := by
  cases z with
  | nil => rfl
  | cons v t => exact List.dropWhile_cons_of_neg (by simp [h v t rfl])

/-- The collapse fixpoint property survives dropping leading whitespace. -/
theorem collapse_fix_dropWhile {y : JStr} (h : collapseGo false y = y) :
    collapseGo false (y.dropWhile isWS) = y.dropWhile isWS := by
  cases y with
  | nil => rfl
  | cons u z =>
    by_cases hu : isWS u = true
    · obtain ⟨-, htrue⟩ := collapse_fix_cons_ws hu h
      obtain ⟨hz, hhead⟩ := collapse_true_fix htrue
      rw [List.dropWhile_cons_of_pos hu, dropWhile_of_head_not hhead]
      exact hz
    · have hu' : isWS u = false := by simpa using hu
      rw [List.dropWhile_cons_of_neg (by simp [hu'])]
      exact h

theorem trimEnd_head : ∀ (u : Nat) (z : JStr),
    trimEnd (u :: z) = [] ∨ ∃ t, trimEnd (u :: z) = u :: t := by
  intro u z
  unfold trimEnd
  cases trimEnd z with
  | nil =>
    by_cases hu : isWS u = true
    · left; simp [hu]
    · right; exact ⟨[], by simp [hu]⟩
  | cons w t => right; exact ⟨w :: t, rfl⟩

/-- Unfolding of the trailing trim on a cons. -/
theorem trimEnd_cons (u : Nat) (z : JStr) :
    trimEnd (u :: z) = match trimEnd z with
      | [] => if isWS u = true then [] else [u]
      | r => u :: r := rfl

/-- The collapse fixpoint property survives trimming trailing
whitespace. -/
theorem collapse_fix_trimEnd : ∀ {z : JStr}, collapseGo false z = z →
    collapseGo false (trimEnd z) = trimEnd z := by
  intro z
  induction z with
  | nil => intro _; rfl
  | cons u rest ih =>
    intro h
    rw [trimEnd_cons]
    cases htr : trimEnd rest with
    | nil =>
      by_cases hu : isWS u = true
      · simp only [if_pos hu]
        rfl
      · simp only [if_neg hu]
        rw [collapseGo_cons_not_ws (by simpa using hu) false]
        rfl
    | cons w t =>
      simp only []
      by_cases hu : isWS u = true
      · obtain ⟨hu32, htrue⟩ := collapse_fix_cons_ws hu h
        obtain ⟨hrest, hhead⟩ := collapse_true_fix htrue
        have hwt : collapseGo false (w :: t) = w :: t := by
          rw [← htr]; exact ih hrest
        have hw : isWS w = false := by
          cases rest with
          | nil => cases htr
          | cons v rest' =>
            rcases trimEnd_head v rest' with h1 | ⟨t', h1⟩
            · rw [h1] at htr; cases htr
            · rw [h1] at htr
              rw [← (List.cons.inj htr).1]
              exact hhead v rest' rfl
        have ht : collapseGo false t = t := by
          rw [collapseGo_cons_not_ws hw false] at hwt
          exact (List.cons.inj hwt).2
        rw [collapseGo_false_ws hu, collapseGo_cons_not_ws hw true, ht, hu32]
      · have hu' : isWS u = false := by simpa using hu
        have hrest : collapseGo false rest = rest := collapse_fix_cons_not_ws hu' h
        have hwt : collapseGo false (w :: t) = w :: t := by
          rw [← htr]; exact ih hrest
        rw [collapseGo_cons_not_ws hu' false, hwt]

/-- The last unit surviving the trailing trim is never whitespace. -/
theorem trimEnd_getLast_not_ws : ∀ (z : JStr) (u : Nat),
    (trimEnd z).getLast? = some u → isWS u = false
  | [], u, h => by cases h
  | v :: z, u, h => by
    rw [trimEnd_cons] at h
    cases htr : trimEnd z with
    | nil =>
      rw [htr] at h
      by_cases hv : isWS v = true
      · simp only [if_pos hv] at h
        cases h
      · simp only [if_neg hv] at h
        simp only [List.getLast?_singleton, Option.some.injEq] at h
        rw [← h]
        simpa using hv
    | cons w t =>
      rw [htr] at h
      simp only [List.getLast?_cons_cons] at h
      apply trimEnd_getLast_not_ws z u
      rw [htr]
      cases t with
      | nil => simpa using h
      | cons w' t' => simpa using h

/-- A string whose last unit is not whitespace is unchanged by the
trailing trim. -/
theorem trimEnd_of_getLast_not_ws : ∀ {z : JStr},
    (∀ u, z.getLast? = some u → isWS u = false) → trimEnd z = z
  | [], _ => rfl
  | [v], h => by
    have hv : isWS v = false := h v rfl
    rw [trimEnd_cons]
    show (if isWS v = true then [] else [v]) = [v]
    rw [if_neg (by simp [hv])]
  | v :: w :: t, h => by
    have htr : trimEnd (w :: t) = w :: t :=
      trimEnd_of_getLast_not_ws (fun u hu => h u (by rw [List.getLast?_cons_cons]; exact hu))
    rw [trimEnd_cons, htr]

theorem trimEnd_idem (z : JStr) : trimEnd (trimEnd z) = trimEnd z :=
  trimEnd_of_getLast_not_ws (trimEnd_getLast_not_ws z)

/-- The trailing trim keeps the head (or empties the string), so it
preserves "no leading whitespace". -/
theorem trimEnd_head_not_ws {z : JStr} (h : ∀ v t, z = v :: t → isWS v = false) :
    ∀ v t, trimEnd z = v :: t → isWS v = false := by
  intro v t hvt
  cases z with
  | nil => cases hvt
  | cons w z' =>
    rcases trimEnd_head w z' with h1 | ⟨t', h1⟩
    · rw [h1] at hvt; cases hvt
    · rw [h1] at hvt
      rw [← (List.cons.inj hvt).1]
      exact h w z' rfl

/-- The head surviving `dropWhile isWS` is not whitespace. -/
theorem trimStr_head_not_ws (y : JStr) :
    ∀ v t, trimStr y = v :: t → isWS v = false := by
  unfold trimStr
  exact trimEnd_head_not_ws (fun v t ht => dropWhile_head_not isWS y v t ht)

theorem trimStr_idem (y : JStr) : trimStr (trimStr y) = trimStr y := by
  show trimEnd ((trimStr y).dropWhile isWS) = trimStr y
  rw [dropWhile_of_head_not (trimStr_head_not_ws y)]
  show trimEnd (trimEnd (y.dropWhile isWS)) = trimStr y
  rw [trimEnd_idem]
  rfl

/-- The collapse fixpoint property survives the whole trim. -/
theorem collapse_fix_trimStr {y : JStr} (h : collapseGo false y = y) :
    collapseGo false (trimStr y) = trimStr y :=
  collapse_fix_trimEnd (collapse_fix_dropWhile h)

/-- The final two stages of the normalizer are idempotent. -/
theorem canonWS_idem (x : JStr) : canonWS (canonWS x) = canonWS x := by
  unfold canonWS collapseWS
  rw [collapse_fix_trimStr (collapseGo_idem x).1]
  exact trimStr_idem _

/-! ## Units surviving each normalizer stage (towards claim C4) -/

theorem mem_collapseGo : ∀ (b : Bool) (x : JStr), ∀ u ∈ collapseGo b x, u ∈ x ∨ u = 32
  | _, [], u, hu => absurd hu (List.not_mem_nil u)
  | b, v :: rest, u, hu => by
    by_cases hv : isWS v = true
    · have hrec : u ∈ collapseGo true rest → u ∈ v :: rest ∨ u = 32 := by
        intro h
        rcases mem_collapseGo true rest u h with h2 | h2
        · exact Or.inl (List.mem_cons_of_mem v h2)
        · exact Or.inr h2
      cases b
      · rw [collapseGo_false_ws hv] at hu
        rcases List.mem_cons.mp hu with h | h
        · exact Or.inr h
        · exact hrec h
      · rw [collapseGo_true_ws hv] at hu
        exact hrec hu
    · rw [collapseGo_cons_not_ws (by simpa using hv) b] at hu
      rcases List.mem_cons.mp hu with h | h
      · exact Or.inl (by rw [h]; exact List.mem_cons_self v rest)
      · rcases mem_collapseGo false rest u h with h2 | h2
        · exact Or.inl (List.mem_cons_of_mem v h2)
        · exact Or.inr h2

theorem mem_trimEnd : ∀ (z : JStr), ∀ u ∈ trimEnd z, u ∈ z
  | [], u, hu => absurd hu (List.not_mem_nil u)
  | v :: z, u, hu => by
    rw [trimEnd_cons] at hu
    cases htr : trimEnd z with
    | nil =>
      rw [htr] at hu
      by_cases hv : isWS v = true
      · rw [if_pos hv] at hu
        exact absurd hu (List.not_mem_nil u)
      · rw [if_neg hv] at hu
        rw [List.mem_singleton.mp hu]
        exact List.mem_cons_self v z
    | cons w t =>
      rw [htr] at hu
      rcases List.mem_cons.mp hu with h | h
      · rw [h]
        exact List.mem_cons_self v z
      · exact List.mem_cons_of_mem v (mem_trimEnd z u (htr ▸ h))

theorem mem_trimStr (y : JStr) : ∀ u ∈ trimStr y, u ∈ y := by
  intro u hu
  exact (List.dropWhile_sublist isWS).subset (mem_trimEnd _ u hu)

theorem mem_canonWS (x : JStr) : ∀ u ∈ canonWS x, u ∈ x ∨ u = 32 := by
  intro u hu
  exact mem_collapseGo false x u (mem_trimStr _ u hu)

theorem replacePSGo_cons (b : Bool) (u : Nat) (rest : JStr) :
    replacePSGo b (u :: rest)
      = if isPS u = true then
          (if b = true then replacePSGo true rest else 32 :: replacePSGo true rest)
        else u :: replacePSGo false rest := rfl

theorem replacePSGo_false_ps {u : Nat} (h : isPS u = true) (rest : JStr) :
    replacePSGo false (u :: rest) = 32 :: replacePSGo true rest := by
  rw [replacePSGo_cons, if_pos h, if_neg Bool.false_ne_true]

theorem replacePSGo_true_ps {u : Nat} (h : isPS u = true) (rest : JStr) :
    replacePSGo true (u :: rest) = replacePSGo true rest := by
  rw [replacePSGo_cons, if_pos h, if_pos rfl]

theorem replacePSGo_cons_not_ps {u : Nat} (h : isPS u = false) (b : Bool) (rest : JStr) :
    replacePSGo b (u :: rest) = u :: replacePSGo false rest := by
  rw [replacePSGo_cons, if_neg (by simp [h])]

theorem mem_replacePSGo : ∀ (b : Bool) (x : JStr), ∀ u ∈ replacePSGo b x,
    (u ∈ x ∧ isPS u = false) ∨ u = 32
  | _, [], u, hu => absurd hu (List.not_mem_nil u)
  | b, v :: rest, u, hu => by
    by_cases hv : isPS v = true
    · have hrec : u ∈ replacePSGo true rest → (u ∈ v :: rest ∧ isPS u = false) ∨ u = 32 := by
        intro h
        rcases mem_replacePSGo true rest u h with ⟨h2, h3⟩ | h2
        · exact Or.inl ⟨List.mem_cons_of_mem v h2, h3⟩
        · exact Or.inr h2
      cases b
      · rw [replacePSGo_false_ps hv] at hu
        rcases List.mem_cons.mp hu with h | h
        · exact Or.inr h
        · exact hrec h
      · rw [replacePSGo_true_ps hv] at hu
        exact hrec hu
    · have hv' : isPS v = false := by simpa using hv
      rw [replacePSGo_cons_not_ps hv' b] at hu
      rcases List.mem_cons.mp hu with h | h
      · exact Or.inl ⟨by rw [h]; exact List.mem_cons_self v rest, by rw [h]; exact hv'⟩
      · rcases mem_replacePSGo false rest u h with ⟨h2, h3⟩ | h2
        · exact Or.inl ⟨List.mem_cons_of_mem v h2, h3⟩
        · exact Or.inr h2

theorem composePair_some {a b c : Nat} (h : composePair a b = some c) : c = 225 := by
  unfold composePair at h
  by_cases h1 : (a = 97 && b = 769) = true
  · rw [if_pos h1] at h
    exact (Option.some.inj h).symm
  · rw [if_neg h1] at h
    cases h

theorem composeAux_cons2 (fuel : Nat) (a b : Nat) (rest : JStr) :
    composeAux (fuel + 1) (a :: b :: rest)
      = match composePair a b with
        | some c => composeAux fuel (c :: rest)
        | none => a :: composeAux fuel (b :: rest) := rfl

theorem mem_composeAux : ∀ (fuel : Nat) (s : JStr), ∀ u ∈ composeAux fuel s, u ∈ s ∨ u = 225
  | 0, _, u, hu => Or.inl hu
  | _ + 1, [], u, hu => Or.inl hu
  | _ + 1, [_], u, hu => Or.inl hu
  | fuel + 1, a :: b :: rest, u, hu => by
    rw [composeAux_cons2] at hu
    cases hcp : composePair a b with
    | some c =>
      rw [hcp] at hu
      have hc := composePair_some hcp
      rcases mem_composeAux fuel (c :: rest) u hu with h | h
      · rcases List.mem_cons.mp h with h2 | h2
        · exact Or.inr (h2.trans hc)
        · exact Or.inl (List.mem_cons_of_mem a (List.mem_cons_of_mem b h2))
      · exact Or.inr h
    | none =>
      rw [hcp] at hu
      rcases List.mem_cons.mp hu with h | h
      · exact Or.inl (by rw [h]; exact List.mem_cons_self a (b :: rest))
      · rcases mem_composeAux fuel (b :: rest) u h with h2 | h2
        · exact Or.inl (List.mem_cons_of_mem a h2)
        · exact Or.inr h2

theorem mem_decomp {v u : Nat} (h : u ∈ decomp v) : u = v ∨ u = 97 ∨ u = 769 := by
  unfold decomp at h
  by_cases hv : v = 225
  · rw [if_pos hv] at h
    rcases List.mem_cons.mp h with h1 | h1
    · exact Or.inr (Or.inl h1)
    · exact Or.inr (Or.inr (List.mem_singleton.mp h1))
  · rw [if_neg hv] at h
    exact Or.inl (List.mem_singleton.mp h)

theorem mem_nfkc (s : JStr) : ∀ u ∈ nfkc s, u ∈ s ∨ u = 97 ∨ u = 769 ∨ u = 225 := by
  intro u hu
  rcases mem_composeAux _ _ u hu with h | h
  · obtain ⟨v, hv, hd⟩ := List.mem_flatMap.mp h
    rcases mem_decomp hd with h1 | h1 | h1
    · exact Or.inl (h1 ▸ hv)
    · exact Or.inr (Or.inl h1)
    · exact Or.inr (Or.inr (Or.inl h1))
  · exact Or.inr (Or.inr (Or.inr h))

theorem lowerUnit_not_upper (u : Nat) : ¬(65 ≤ lowerUnit u ∧ lowerUnit u ≤ 90) := by
  unfold lowerUnit
  by_cases h : (65 ≤ u && u ≤ 90) = true
  · rw [if_pos h]
    simp only [Bool.and_eq_true, decide_eq_true_eq] at h
    omega
  · rw [if_neg h]
    simp only [Bool.and_eq_true, decide_eq_true_eq, not_and, not_le] at h
    omega

theorem lowerUnit_eq_self {u : Nat} (h : ¬(65 ≤ u ∧ u ≤ 90)) : lowerUnit u = u := by
  unfold lowerUnit
  rw [if_neg (by simp only [Bool.and_eq_true, decide_eq_true_eq]; omega)]

theorem mem_lowerStr (s : JStr) : ∀ u ∈ lowerStr s, ¬(65 ≤ u ∧ u ≤ 90) := by
  intro u hu
  obtain ⟨v, -, hv⟩ := List.mem_map.mp hu
  rw [← hv]
  exact lowerUnit_not_upper v

/-- No unit of a normalized string is in the P/S class: the run replacement
removed them all, and the later stages only drop units or insert the space
(32), which is not P/S. -/
theorem normalize_no_PS (s : Option JStr) : ∀ u ∈ normalize s, isPS u = false := by
  intro u hu
  rcases mem_canonWS _ u hu with h | h
  · rcases mem_replacePSGo false _ u h with ⟨-, h2⟩ | h2
    · exact h2
    · rw [h2]; decide
  · rw [h]; decide

/-- No unit of a normalized string is an ASCII uppercase letter. -/
theorem normalize_no_upper (s : Option JStr) :
    ∀ u ∈ normalize s, ¬(65 ≤ u ∧ u ≤ 90) := by
  intro u hu
  rcases mem_canonWS _ u hu with h | h
  · rcases mem_replacePSGo false _ u h with ⟨h1, -⟩ | h1
    · have h2 := List.mem_of_mem_filter h1
      have h3 := List.mem_of_mem_filter h2
      have h4 := List.mem_of_mem_filter h3
      rcases mem_nfkc _ u h4 with h5 | h5 | h5 | h5
      · exact mem_lowerStr _ u h5
      · omega
      · omega
      · omega
    · omega
  · omega

theorem lowerStr_eq_self {x : JStr} (h : ∀ u ∈ x, ¬(65 ≤ u ∧ u ≤ 90)) :
    lowerStr x = x := by
  unfold lowerStr
  induction x with
  | nil => rfl
  | cons v rest ih =>
    rw [List.map_cons, lowerUnit_eq_self (h v (List.mem_cons_self v rest)),
      ih (fun u hu => h u (List.mem_cons_of_mem v hu))]

theorem isQuoteChar_isPS {u : Nat} (h : isQuoteChar u = true) : isPS u = true := by
  unfold isQuoteChar at h
  simp only [Bool.or_eq_true, beq_iff_eq] at h
  rcases h with ((((((h | h) | h) | h) | h) | h) | h) | h <;> subst h <;> decide

theorem stripQuotes_eq_self {x : JStr} (h : ∀ u ∈ x, isPS u = false) :
    stripQuotes x = x := by
  unfold stripQuotes
  apply List.filter_eq_self.mpr
  intro u hu
  have h1 : isQuoteChar u = false := by
    cases hq : isQuoteChar u
    · rfl
    · exact absurd ((isQuoteChar_isPS hq).symm.trans (h u hu)) (by decide)
  rw [h1]
  rfl

theorem stripBrackets_eq_self {x : JStr} (h : ∀ u ∈ x, isPS u = false) :
    stripBrackets x = x := by
  unfold stripBrackets
  have h91 : ∀ u ∈ x, (!(u == 91)) = true := by
    intro u hu
    have : u ≠ 91 := by
      intro he
      rw [he] at hu
      exact absurd (h 91 hu) (by decide)
    simp [this]
  have hfix : x.filter (fun u => !(u == 91)) = x := List.filter_eq_self.mpr h91
  rw [hfix]
  apply List.filter_eq_self.mpr
  intro u hu
  have : u ≠ 93 := by
    intro he
    rw [he] at hu
    exact absurd (h 93 hu) (by decide)
  simp [this]

theorem replacePSGo_eq_self : ∀ (b : Bool) {x : JStr}, (∀ u ∈ x, isPS u = false) →
    replacePSGo b x = x
  | _, [], _ => rfl
  | b, v :: rest, h => by
    have hv : isPS v = false := h v (List.mem_cons_self v rest)
    rw [replacePSGo_cons_not_ps hv b,
      replacePSGo_eq_self false (fun u hu => h u (List.mem_cons_of_mem v hu))]

/-! ## Claim C4: idempotence of the normalizer -/

/-- C4 counterexample: on the three-unit string "a(" followed by the
combining acute accent U+0301, the first normalization deletes the
parenthesis, leaving the letter adjacent to the accent; renormalizing then
composes them into U+00E1, so the normalizer is not idempotent. -/
theorem normalize_not_idempotent :
    normalize (some [97, 40, 769]) = [97, 769]
    ∧ normalize (some (normalize (some [97, 40, 769]))) = [225]
    ∧ normalize (some (normalize (some [97, 40, 769]))) ≠ normalize (some [97, 40, 769]) :=
  ⟨by decide, by decide, by decide⟩

/-- C4 amended: the normalizer is idempotent on every string whose
normalized form is NFKC-stable (renormalization changes nothing) — in
particular on all inputs whose normalized form contains no composable
letter-accent pair.  The unconditional claim fails because quote/bracket
deletion can make a new canonical composition possible, as the
counterexample shows. -/
theorem normalize_idempotent_of_nfkc_fixed (s : JStr)
    (h : nfkc (normalize (some s)) = normalize (some s)) :
    normalize (some (normalize (some s))) = normalize (some s) := by
  have hps : ∀ u ∈ normalize (some s), isPS u = false := normalize_no_PS (some s)
  have hup : ∀ u ∈ normalize (some s), ¬(65 ≤ u ∧ u ≤ 90) := normalize_no_upper (some s)
  show canonWS (replacePS (stripBrackets (stripQuotes
    (nfkc (lowerStr (normalize (some s))))))) = normalize (some s)
  rw [lowerStr_eq_self hup, h, stripQuotes_eq_self hps, stripBrackets_eq_self hps,
    replacePS, replacePSGo_eq_self false hps]
  show canonWS (canonWS (replacePS (stripBrackets (stripQuotes
    (nfkc (lowerStr (orEmpty (some s)))))))) = normalize (some s)
  rw [canonWS_idem]
  rfl

/-- Witness for C4's amended statement on a plain ASCII string. -/
theorem normalize_idempotent_witness :
    nfkc (normalize (some (jstr "  Hello,  (World) "))) = normalize (some (jstr "  Hello,  (World) "))
    ∧ normalize (some (normalize (some (jstr "  Hello,  (World) "))))
      = normalize (some (jstr "  Hello,  (World) ")) :=
  ⟨by decide, normalize_idempotent_of_nfkc_fixed (jstr "  Hello,  (World) ") (by decide)⟩

end LangStudy
